import Mathlib

/-!
Shallow embedding of the YIN pitch-detection kernel
(`src/public/tone_trainer/yin-wasm/src/lib.rs`).

Modelling conventions:
* `f32` samples and all floating-point arithmetic are embedded as exact
  rationals `ℚ`; division is the total field division of `ℚ` (so `x / 0 = 0`
  where IEEE-754 would produce an infinity or NaN).
* Rust slices and `Vec<f32>` are embedded as `List ℚ`; in-bounds reads use
  `List.getD _ 0` (every read performed by the source is in bounds at its
  call sites, which the theorems below make explicit).
* A Rust panic (out-of-bounds vector write, integer division by zero) is
  modelled by the value `none` of an `Option` result.
* The two `while` loops of the source are embedded as structural recursion
  on an explicit iteration budget ("fuel"); each budget passed at the call
  site is proved sufficient, so the fueled function agrees with the loop
  wherever the loop terminates, and returns `none` (driver loop) exactly
  when the loop would not have finished within the budget.
-/

/-- Step 1 of YIN (`yin_difference_function` in the source): for a frame
`buffer` of length `N`, entry `tau < N / 2` is `Σ_{j < N / 2} (x_j - x_{j+tau})²`. -/
def yin_difference_function (buffer : List ℚ) : List ℚ :=
  let half_size := buffer.length / 2
  (List.range half_size).map (fun tau =>
    ((List.range half_size).map (fun j =>
      let delta := buffer.getD j 0 - buffer.getD (j + tau) 0
      delta * delta)).sum)

/-- Body of the `for tau in 1..len` loop of
`yin_cumulative_mean_normalized_difference`: emits the entries for lags
`tau, tau+1, …, len-1`, carrying the running sum of the difference function.
The fuel argument bounds the remaining iterations; every call site passes
at least `len - tau`, so the `0` case coincides with the loop's exit. -/
def yin_cmndf_loop (d : List ℚ) : ℕ → ℚ → ℕ → List ℚ
  | _tau, _running_sum, 0 => []
  | tau, running_sum, fuel + 1 =>
    if tau < d.length then
      let rs := running_sum + d.getD tau 0
      (d.getD tau 0 / (rs / (tau : ℚ))) :: yin_cmndf_loop d (tau + 1) rs fuel
    else []

/-- Step 2 of YIN (`yin_cumulative_mean_normalized_difference` in the
source). The source allocates `vec![0.0; len]` and immediately writes
`cmndf[0] = 1.0`, which panics when `len = 0`; that panic is the `none`
branch. Otherwise the result is `1.0` followed by the loop entries for
lags `1..len`. -/
def yin_cumulative_mean_normalized_difference (d : List ℚ) : Option (List ℚ) :=
  if d.length = 0 then none
  else some (1 :: yin_cmndf_loop d 1 0 d.length)

/-- Inner `while` of `yin_absolute_threshold`: starting from `tau`, keep
advancing while the next CMNDF sample exists and is strictly smaller.
Fuel bounds the iterations; call sites pass `cmndf.length`, which is
sufficient because `tau` stays below `cmndf.length`. -/
def yin_threshold_inner (cmndf : List ℚ) : ℕ → ℕ → ℕ
  | tau, 0 => tau
  | tau, fuel + 1 =>
    if tau + 1 < cmndf.length ∧ cmndf.getD (tau + 1) 0 < cmndf.getD tau 0 then
      yin_threshold_inner cmndf (tau + 1) fuel
    else tau

/-- Outer `while` of `yin_absolute_threshold`: scan `tau` upward while
`tau < cmndf.length`; at the first sub-threshold sample descend with
`yin_threshold_inner` and return that lag, otherwise return `-1`.
With fuel `0` it returns `-1`, which agrees with the loop under the call
sites' invariant `cmndf.length ≤ tau + fuel`. -/
def yin_threshold_outer (cmndf : List ℚ) (threshold : ℚ) : ℕ → ℕ → ℤ
  | _tau, 0 => -1
  | tau, fuel + 1 =>
    if tau < cmndf.length then
      if cmndf.getD tau 0 < threshold then
        ((yin_threshold_inner cmndf tau cmndf.length : ℕ) : ℤ)
      else
        yin_threshold_outer cmndf threshold (tau + 1) fuel
    else -1

/-- Step 3 of YIN (`yin_absolute_threshold` in the source): the scan starts
at lag 2. -/
def yin_absolute_threshold (cmndf : List ℚ) (threshold : ℚ) : ℤ :=
  yin_threshold_outer cmndf threshold 2 cmndf.length

/-- Step 4 of YIN (`yin_parabolic_interpolation` in the source). The source
computes `cmndf.len() - 1` in `usize`; the `ℕ` truncated subtraction used
here agrees with it whenever the curve is non-empty, which holds at every
call site (the CMNDF stage would have panicked otherwise). -/
def yin_parabolic_interpolation (cmndf : List ℚ) (tau_estimate : ℤ) : ℚ :=
  let tau := tau_estimate.toNat
  if tau < 1 ∨ cmndf.length - 1 ≤ tau then (tau_estimate : ℚ)
  else
    let s0 := cmndf.getD (tau - 1) 0
    let s1 := cmndf.getD tau 0
    let s2 := cmndf.getD (tau + 1) 0
    (tau_estimate : ℚ) + (s2 - s0) / (2 * (2 * s1 - s2 - s0))

/-- Body of the frame loop of `perform_yin_analysis` (lines 123-161 of the
source): analyse one frame and produce its `[pitch, confidence, tau]`
triple, or `none` if the CMNDF stage panics. -/
def yin_analyze_frame (frame : List ℚ) (sample_rate threshold min_freq max_freq : ℚ)
    (interpolation : Bool) : Option (List ℚ) :=
  let difference_function := yin_difference_function frame
  match yin_cumulative_mean_normalized_difference difference_function with
  | none => none
  | some cmndf =>
    let tau_estimate := yin_absolute_threshold cmndf threshold
    let pc :=
      if 0 < tau_estimate then
        let better_tau :=
          if interpolation then yin_parabolic_interpolation cmndf tau_estimate
          else (tau_estimate : ℚ)
        let freq := sample_rate / better_tau
        let conf := 1 - cmndf.getD tau_estimate.toNat 0
        if min_freq ≤ freq ∧ freq ≤ max_freq then (freq, conf) else ((0 : ℚ), (0 : ℚ))
      else ((0 : ℚ), (0 : ℚ))
    some [pc.1, pc.2, (tau_estimate : ℚ)]

/-- The `while i + frame_size <= audio_len` loop of `perform_yin_analysis`.
Fuel bounds the number of iterations: exhausting it with a frame still
pending yields `none`, which is proved unreachable for `hop_size ≥ 1` with
the budget `audio.length + 1` passed by `perform_yin_analysis`. -/
def yin_frame_loop (audio : List ℚ) (sample_rate : ℚ) (frame_size hop_size : ℕ)
    (threshold min_freq max_freq : ℚ) (interpolation : Bool) : ℕ → ℕ → Option (List ℚ)
  | i, 0 => if i + frame_size ≤ audio.length then none else some []
  | i, fuel + 1 =>
    if i + frame_size ≤ audio.length then
      match yin_analyze_frame ((audio.drop i).take frame_size)
          sample_rate threshold min_freq max_freq interpolation with
      | none => none
      | some triple =>
        match yin_frame_loop audio sample_rate frame_size hop_size
            threshold min_freq max_freq interpolation (i + hop_size) fuel with
        | none => none
        | some rest => some (triple ++ rest)
    else some []

/-- Driver `perform_yin_analysis` from the source. After the `audio_len < frame_size`
guard the source computes `(audio_len - frame_size) / hop_size + 1`, a `usize`
division that panics when `hop_size = 0`; that panic is the second `none`
branch (the `reserve` the quotient feeds has no observable effect and is
dropped). -/
def perform_yin_analysis (audio_data : List ℚ) (sample_rate : ℚ)
    (frame_size hop_size : ℕ) (threshold min_freq max_freq : ℚ)
    (interpolation : Bool) : Option (List ℚ) :=
  if audio_data.length < frame_size then some []
  else if hop_size = 0 then none
  else
    yin_frame_loop audio_data sample_rate frame_size hop_size
      threshold min_freq max_freq interpolation 0 (audio_data.length + 1)

/-- Helper `get_frame_count` from the source; the `usize` division by `hop_size`
panics when `hop_size = 0` and `audio_len ≥ frame_size`, modelled by `none`. -/
def get_frame_count (audio_len frame_size hop_size : ℕ) : Option ℕ :=
  if audio_len < frame_size then some 0
  else if hop_size = 0 then none
  else some ((audio_len - frame_size) / hop_size + 1)

/-- The `better_tau` computation of `perform_yin_analysis` (lines 136-140):
the refined period used for the frequency conversion, given the CMNDF curve
and the threshold that produced the integer candidate. -/
def yin_refined_period (cmndf : List ℚ) (threshold : ℚ) (interpolation : Bool) : ℚ :=
  if interpolation then
    yin_parabolic_interpolation cmndf (yin_absolute_threshold cmndf threshold)
  else ((yin_absolute_threshold cmndf threshold : ℤ) : ℚ)

/-! ### Generic list lemmas -/

lemma list_sum_map_range (f : ℕ → ℚ) : ∀ n : ℕ,
    ((List.range n).map f).sum = ∑ j ∈ Finset.range n, f j := by
  intro n
  induction n with
  | zero => simp
  | succ m ih =>
    rw [List.range_succ, List.map_append, List.sum_append, Finset.sum_range_succ, ih]
    simp

lemma getD_map_range (f : ℕ → ℚ) {n k : ℕ} (h : k < n) :
    ((List.range n).map f).getD k 0 = f k := by
  rw [List.getD_eq_getElem?_getD, List.getElem?_map, List.getElem?_range h]
  rfl

/-! ### Difference function lemmas -/

lemma yin_difference_function_length (buffer : List ℚ) :
    (yin_difference_function buffer).length = buffer.length / 2 := by
  simp [yin_difference_function]

lemma yin_difference_function_getD (buffer : List ℚ) {tau : ℕ}
    (h : tau < buffer.length / 2) :
    (yin_difference_function buffer).getD tau 0 =
      ∑ j ∈ Finset.range (buffer.length / 2),
        (buffer.getD j 0 - buffer.getD (j + tau) 0) *
          (buffer.getD j 0 - buffer.getD (j + tau) 0) := by
  unfold yin_difference_function
  rw [getD_map_range _ h, list_sum_map_range]

/-- C6: for every frame of even length `N`, the difference function has
length `N / 2`, its entry at lag `tau` is the sum over `j < N / 2` of
`(x[j] - x[j + tau])` squared, and its entry at lag `0` is exactly `0`. -/
theorem spec_c6 (buffer : List ℚ) (n : ℕ) (h : buffer.length = 2 * n) :
    (yin_difference_function buffer).length = n ∧
    (∀ tau, tau < n → (yin_difference_function buffer).getD tau 0 =
      ∑ j ∈ Finset.range n,
        (buffer.getD j 0 - buffer.getD (j + tau) 0) *
          (buffer.getD j 0 - buffer.getD (j + tau) 0)) ∧
    (0 < n → (yin_difference_function buffer).getD 0 0 = 0) := by
  have hhalf : buffer.length / 2 = n := by omega
  refine ⟨by rw [yin_difference_function_length, hhalf], ?_, ?_⟩
  · intro tau htau
    rw [yin_difference_function_getD buffer (by omega), hhalf]
  · intro hn
    rw [yin_difference_function_getD buffer (by omega), hhalf]
    apply Finset.sum_eq_zero
    intro j _
    simp

/-- C6 witness: the difference function of the frame `[1, 2]` has length 1
and entry `0` equal to `0`. -/
theorem spec_c6_witness :
    (yin_difference_function [1, 2]).length = 1 ∧
    (yin_difference_function [1, 2]).getD 0 0 = 0 := by
  obtain ⟨h1, _, h3⟩ := spec_c6 [1, 2] 1 (by decide)
  exact ⟨h1, h3 (by decide)⟩

/-! ### CMNDF lemmas -/

lemma yin_cmndf_loop_length (d : List ℚ) :
    ∀ fuel tau rs, d.length ≤ tau + fuel →
      (yin_cmndf_loop d tau rs fuel).length = d.length - tau := by
  intro fuel
  induction fuel with
  | zero =>
    intro tau rs h
    simp only [yin_cmndf_loop, List.length_nil]
    omega
  | succ n ih =>
    intro tau rs h
    by_cases hc : tau < d.length
    · simp only [yin_cmndf_loop, if_pos hc, List.length_cons]
      rw [ih (tau + 1) _ (by omega)]
      omega
    · simp only [yin_cmndf_loop, if_neg hc, List.length_nil]
      omega

lemma yin_cmndf_loop_getD (d : List ℚ) :
    ∀ fuel tau rs j, d.length ≤ tau + fuel → 0 < tau → tau + j < d.length →
      (yin_cmndf_loop d tau rs fuel).getD j 0 =
        d.getD (tau + j) 0 /
          ((rs + ∑ k ∈ Finset.range (j + 1), d.getD (tau + k) 0) /
            ((tau + j : ℕ) : ℚ)) := by
  intro fuel
  induction fuel with
  | zero =>
    intro tau rs j h _ hj
    exact absurd hj (by omega)
  | succ n ih =>
    intro tau rs j h htau hj
    have hc : tau < d.length := by omega
    cases j with
    | zero =>
      simp only [yin_cmndf_loop, if_pos hc, List.getD_cons_zero, Nat.add_zero]
      norm_num [Finset.sum_range_one]
    | succ m =>
      simp only [yin_cmndf_loop, if_pos hc, List.getD_cons_succ]
      rw [ih (tau + 1) (rs + d.getD tau 0) m (by omega) (by omega) (by omega)]
      have h1 : tau + 1 + m = tau + (m + 1) := by omega
      have h2 : rs + d.getD tau 0 + ∑ k ∈ Finset.range (m + 1), d.getD (tau + 1 + k) 0
          = rs + ∑ k ∈ Finset.range (m + 1 + 1), d.getD (tau + k) 0 := by
        rw [Finset.sum_range_succ' (fun k => d.getD (tau + k) 0) (m + 1)]
        have hsum : ∑ k ∈ Finset.range (m + 1), d.getD (tau + (k + 1)) 0
            = ∑ k ∈ Finset.range (m + 1), d.getD (tau + 1 + k) 0 :=
          Finset.sum_congr rfl (fun k _ => by rw [show tau + (k + 1) = tau + 1 + k by omega])
        rw [hsum]
        rw [add_assoc, add_comm (d.getD tau 0)]
        norm_num
      rw [h2, h1]

/-- C5: for every non-empty difference-function curve, the CMNDF stage
produces a curve of identical length with entry `0` equal to `1`, and for
every `tau ≥ 1` the entry at `tau` is
`diff[tau] / (runningSum / tau)` where `runningSum` is the sum of
`diff[1..tau]` inclusive. -/
theorem spec_c5 (d c : List ℚ)
    (h : yin_cumulative_mean_normalized_difference d = some c) :
    c.length = d.length ∧ c.getD 0 0 = 1 ∧
    ∀ tau, 1 ≤ tau → tau < d.length →
      c.getD tau 0 = d.getD tau 0 /
        ((∑ k ∈ Finset.range tau, d.getD (k + 1) 0) / ((tau : ℕ) : ℚ)) := by
  unfold yin_cumulative_mean_normalized_difference at h
  by_cases h0 : d.length = 0
  · rw [if_pos h0] at h
    exact absurd h (by simp)
  · rw [if_neg h0] at h
    obtain rfl : c = 1 :: yin_cmndf_loop d 1 0 d.length := (Option.some_inj.mp h).symm
    refine ⟨?_, rfl, ?_⟩
    · rw [List.length_cons, yin_cmndf_loop_length d d.length 1 0 (by omega)]
      omega
    · intro tau h1 h2
      obtain ⟨m, rfl⟩ : ∃ m, tau = m + 1 := ⟨tau - 1, by omega⟩
      rw [List.getD_cons_succ,
        yin_cmndf_loop_getD d d.length 1 0 m (by omega) (by omega) (by omega)]
      have e1 : 1 + m = m + 1 := by omega
      have e2 : ∑ k ∈ Finset.range (m + 1), d.getD (1 + k) 0
          = ∑ k ∈ Finset.range (m + 1), d.getD (k + 1) 0 :=
        Finset.sum_congr rfl (fun k _ => by rw [Nat.add_comm])
      rw [e1, e2, zero_add]

/-- C5 witness: the CMNDF of the difference curve `[0, 2]` is `[1, 1]`,
and its entry at lag `1` matches the running-mean formula. -/
theorem spec_c5_witness :
    ([(1 : ℚ), 1]).length = ([(0 : ℚ), 2]).length ∧
    ([(1 : ℚ), 1]).getD 1 0 =
      ([(0 : ℚ), 2]).getD 1 0 /
        ((∑ k ∈ Finset.range 1, ([(0 : ℚ), 2]).getD (k + 1) 0) / ((1 : ℕ) : ℚ)) := by
  obtain ⟨ha, _, hc⟩ := spec_c5 [0, 2] [1, 1]
    (by norm_num [yin_cumulative_mean_normalized_difference, yin_cmndf_loop])
  exact ⟨ha, hc 1 (by norm_num) (by norm_num)⟩

/-! ### Threshold search lemmas -/

lemma yin_threshold_inner_spec (cm : List ℚ) :
    ∀ fuel tau, cm.length ≤ tau + 1 + fuel → tau < cm.length →
      tau ≤ yin_threshold_inner cm tau fuel ∧
      yin_threshold_inner cm tau fuel < cm.length ∧
      (∀ k, tau ≤ k → k < yin_threshold_inner cm tau fuel →
        cm.getD (k + 1) 0 < cm.getD k 0) ∧
      (yin_threshold_inner cm tau fuel + 1 < cm.length →
        ¬ cm.getD (yin_threshold_inner cm tau fuel + 1) 0
            < cm.getD (yin_threshold_inner cm tau fuel) 0) := by
  intro fuel
  induction fuel with
  | zero =>
    intro tau hf ht
    simp only [yin_threshold_inner]
    refine ⟨le_refl _, ht, ?_, ?_⟩
    · intro k hk1 hk2
      exact absurd hk2 (by omega)
    · intro hlt
      exact absurd hlt (by omega)
  | succ n ih =>
    intro tau hf ht
    simp only [yin_threshold_inner]
    by_cases hcond : tau + 1 < cm.length ∧ cm.getD (tau + 1) 0 < cm.getD tau 0
    · rw [if_pos hcond]
      obtain ⟨h1, h2, h3, h4⟩ := ih (tau + 1) (by omega) hcond.1
      refine ⟨by omega, h2, ?_, h4⟩
      intro k hk1 hk2
      rcases Nat.eq_or_lt_of_le hk1 with rfl | hk
      · exact hcond.2
      · exact h3 k (by omega) hk2
    · rw [if_neg hcond]
      push_neg at hcond
      refine ⟨le_refl _, ht, ?_, ?_⟩
      · intro k hk1 hk2
        exact absurd hk2 (by omega)
      · intro hlt
        exact not_lt.mpr (hcond hlt)

lemma yin_threshold_outer_none (cm : List ℚ) (t : ℚ) :
    ∀ fuel tau, cm.length ≤ tau + fuel →
      (∀ k, tau ≤ k → k < cm.length → ¬ cm.getD k 0 < t) →
      yin_threshold_outer cm t tau fuel = -1 := by
  intro fuel
  induction fuel with
  | zero =>
    intro tau _ _
    rfl
  | succ n ih =>
    intro tau hf hall
    simp only [yin_threshold_outer]
    by_cases hc : tau < cm.length
    · rw [if_pos hc, if_neg (hall tau (le_refl _) hc)]
      exact ih (tau + 1) (by omega) (fun k hk1 hk2 => hall k (by omega) hk2)
    · rw [if_neg hc]

lemma yin_threshold_outer_found (cm : List ℚ) (t : ℚ) :
    ∀ fuel tau tau0, cm.length ≤ tau + fuel → tau ≤ tau0 → tau0 < cm.length →
      cm.getD tau0 0 < t →
      (∀ k, tau ≤ k → k < tau0 → ¬ cm.getD k 0 < t) →
      yin_threshold_outer cm t tau fuel =
        ((yin_threshold_inner cm tau0 cm.length : ℕ) : ℤ) := by
  intro fuel
  induction fuel with
  | zero =>
    intro tau tau0 hf h1 h2 _ _
    exact absurd (lt_of_le_of_lt h1 h2) (by omega)
  | succ n ih =>
    intro tau tau0 hf h1 h2 h3 hmin
    have hc : tau < cm.length := lt_of_le_of_lt h1 h2
    simp only [yin_threshold_outer]
    rw [if_pos hc]
    by_cases hx : cm.getD tau 0 < t
    · have : tau = tau0 := by
        by_contra hne
        exact hmin tau (le_refl _) (by omega) hx
      rw [if_pos hx, this]
    · rw [if_neg hx]
      have h1' : tau + 1 ≤ tau0 := by
        rcases Nat.eq_or_lt_of_le h1 with rfl | hlt
        · exact absurd h3 hx
        · omega
      exact ih (tau + 1) tau0 (by omega) h1' h2 h3 (fun k hk1 hk2 => hmin k (by omega) hk2)

/-- Dichotomy for the threshold search: its result is either the sentinel
`-1` or a lag in `[2, cmndf.length)` at which the descent stopped. -/
lemma yin_absolute_threshold_cases (cm : List ℚ) (t : ℚ) :
    yin_absolute_threshold cm t = -1 ∨
    ∃ r : ℕ, yin_absolute_threshold cm t = (r : ℤ) ∧ 2 ≤ r ∧ r < cm.length ∧
      (r + 1 < cm.length → ¬ cm.getD (r + 1) 0 < cm.getD r 0) := by
  by_cases h : ∃ k, 2 ≤ k ∧ k < cm.length ∧ cm.getD k 0 < t
  · right
    have hspec := Nat.find_spec h
    have hmin : ∀ m, m < Nat.find h →
        ¬ (2 ≤ m ∧ m < cm.length ∧ cm.getD m 0 < t) := fun m hm => Nat.find_min h hm
    have hfound := yin_threshold_outer_found cm t cm.length 2 (Nat.find h) (by omega)
      hspec.1 hspec.2.1 hspec.2.2
      (fun k hk1 hk2 hlt => hmin k hk2 ⟨hk1, by omega, hlt⟩)
    obtain ⟨ha, hb, _, hd⟩ :=
      yin_threshold_inner_spec cm cm.length (Nat.find h) (by omega) hspec.2.1
    exact ⟨yin_threshold_inner cm (Nat.find h) cm.length,
      hfound, by omega, hb, hd⟩
  · left
    push_neg at h
    exact yin_threshold_outer_none cm t cm.length 2 (by omega)
      (fun k hk1 hk2 => not_lt.mpr (h k hk1 hk2))

/-- C4: the threshold search scans lags upward from 2; if no lag in
`[2, length)` is below the threshold it returns `-1`; otherwise, from the
first sub-threshold lag it advances while the next sample is strictly
smaller and returns the lag reached. -/
theorem spec_c4 (cm : List ℚ) (t : ℚ) :
    ((∀ k, 2 ≤ k → k < cm.length → ¬ cm.getD k 0 < t) →
      yin_absolute_threshold cm t = -1) ∧
    (∀ tau0, 2 ≤ tau0 → tau0 < cm.length → cm.getD tau0 0 < t →
      (∀ k, 2 ≤ k → k < tau0 → ¬ cm.getD k 0 < t) →
      ∃ r : ℕ, yin_absolute_threshold cm t = (r : ℤ) ∧ tau0 ≤ r ∧ r < cm.length ∧
        (∀ k, tau0 ≤ k → k < r → cm.getD (k + 1) 0 < cm.getD k 0) ∧
        (r + 1 < cm.length → ¬ cm.getD (r + 1) 0 < cm.getD r 0)) := by
  constructor
  · intro hall
    exact yin_threshold_outer_none cm t cm.length 2 (by omega) hall
  · intro tau0 h2 hlen hlt hmin
    unfold yin_absolute_threshold
    rw [yin_threshold_outer_found cm t cm.length 2 tau0 (by omega) h2 hlen hlt hmin]
    obtain ⟨ha, hb, hc, hd⟩ := yin_threshold_inner_spec cm cm.length tau0 (by omega) hlen
    exact ⟨_, rfl, ha, hb, hc, hd⟩

/-- C4 witness: on the curve `[1, 1, 3/10, 1/5, 2/5]` with threshold `1/2`
the search finds lag 2 below the threshold and descends to a lag of at
least 2, so it does not return the sentinel. -/
theorem spec_c4_witness :
    yin_absolute_threshold [1, 1, 3/10, 1/5, 2/5] (1/2) ≠ -1 := by
  obtain ⟨r, hr, hge, -, -, -⟩ :=
    (spec_c4 [1, 1, 3/10, 1/5, 2/5] (1/2)).2 2 (by norm_num) (by norm_num)
      (by norm_num) (fun k hk1 hk2 => absurd (lt_of_le_of_lt hk1 hk2) (lt_irrefl 2))
  rw [hr]
  omega

/-! ### Parabolic interpolation lemmas -/

/-- C7: for a non-empty CMNDF curve and an integer candidate `tau`,
parabolic refinement returns `tau` unchanged when `tau` has no left or
right neighbour, and otherwise returns
`tau + (s2 - s0) / (2 * (2 * s1 - s2 - s0))` for the three samples
centred on `tau`. -/
theorem spec_c7 (cm : List ℚ) (tau : ℕ) (hlen : 1 ≤ cm.length) :
    ((tau < 1 ∨ cm.length ≤ tau + 1) →
      yin_parabolic_interpolation cm (tau : ℤ) = (tau : ℚ)) ∧
    (1 ≤ tau → tau + 1 < cm.length →
      yin_parabolic_interpolation cm (tau : ℤ) =
        (tau : ℚ) + (cm.getD (tau + 1) 0 - cm.getD (tau - 1) 0) /
          (2 * (2 * cm.getD tau 0 - cm.getD (tau + 1) 0 - cm.getD (tau - 1) 0))) := by
  constructor
  · intro hcase
    simp only [yin_parabolic_interpolation, Int.toNat_natCast]
    rw [if_pos (by omega : tau < 1 ∨ cm.length - 1 ≤ tau)]
    norm_cast
  · intro h1 h2
    simp only [yin_parabolic_interpolation, Int.toNat_natCast]
    rw [if_neg (by omega : ¬ (tau < 1 ∨ cm.length - 1 ≤ tau))]
    norm_cast

/-- C7 witness: on the three-sample curve `[1, 1/2, 1]` the candidate 1 is
interior and refinement returns the vertex formula's value. -/
theorem spec_c7_witness :
    yin_parabolic_interpolation [1, 1/2, 1] ((1 : ℕ) : ℤ) =
      ((1 : ℕ) : ℚ) + (([(1 : ℚ), 1/2, 1]).getD 2 0 - ([(1 : ℚ), 1/2, 1]).getD 0 0) /
        (2 * (2 * ([(1 : ℚ), 1/2, 1]).getD 1 0 - ([(1 : ℚ), 1/2, 1]).getD 2 0 -
          ([(1 : ℚ), 1/2, 1]).getD 0 0)) := by
  exact (spec_c7 [1, 1/2, 1] 1 (by norm_num)).2 (by norm_num) (by norm_num)

/-- C8 counterexample: on the CMNDF curve `[1, 2/5, 3/10, 3/5]` with
threshold `1/2` the search returns the candidate 2, yet parabolic
refinement yields `7/4 < 2`: the refined period is **not** always at least
the integer candidate. -/
theorem spec_c8_counterexample :
    yin_absolute_threshold [1, 2/5, 3/10, 3/5] (1/2) = 2 ∧
    yin_parabolic_interpolation [1, 2/5, 3/10, 3/5] 2 < 2 := by
  constructor
  · norm_num [yin_absolute_threshold, yin_threshold_outer, yin_threshold_inner]
  · simp only [yin_parabolic_interpolation, show Int.toNat 2 = 2 from rfl]
    norm_num

/-- C8 (amended): for every CMNDF curve and every integer candidate
returned by the threshold search on it, the refined period is at least the
integer candidate provided the CMNDF sample one past the candidate does
not exceed the sample one before it. -/
theorem spec_c8_amended (cm : List ℚ) (t : ℚ) (r : ℕ)
    (h : yin_absolute_threshold cm t = (r : ℤ))
    (hmono : cm.getD (r + 1) 0 ≤ cm.getD (r - 1) 0) :
    ((r : ℕ) : ℚ) ≤ yin_parabolic_interpolation cm ((r : ℕ) : ℤ) := by
  rcases yin_absolute_threshold_cases cm t with hneg | ⟨r', hr', h2, hlen, hexit⟩
  · rw [h] at hneg
    exact absurd hneg (by omega)
  · rw [h] at hr'
    obtain rfl : r = r' := by omega
    simp only [yin_parabolic_interpolation, Int.toNat_natCast]
    by_cases hb : r < 1 ∨ cm.length - 1 ≤ r
    · rw [if_pos hb]
      norm_cast
    · rw [if_neg hb]
      push_neg at hb
      have hint : r + 1 < cm.length := by omega
      have hs12 : cm.getD r 0 ≤ cm.getD (r + 1) 0 := not_lt.mp (hexit hint)
      have hq : 0 ≤ (cm.getD (r + 1) 0 - cm.getD (r - 1) 0) /
          (2 * (2 * cm.getD r 0 - cm.getD (r + 1) 0 - cm.getD (r - 1) 0)) := by
        apply div_nonneg_iff.mpr
        right
        constructor
        · linarith
        · linarith
      push_cast
      linarith

/-- C8 amended-claim witness: on the curve `[1, 3/5, 3/10, 2/5]` with
threshold `1/2` the search returns 2, the neighbour condition holds, and
the refined period `9/4` is at least 2. -/
theorem spec_c8_amended_witness :
    (((2 : ℕ)) : ℚ) ≤ yin_parabolic_interpolation [1, 3/5, 3/10, 2/5] (((2 : ℕ)) : ℤ) := by
  exact spec_c8_amended [1, 3/5, 3/10, 2/5] (1/2) 2
    (by norm_num [yin_absolute_threshold, yin_threshold_outer, yin_threshold_inner])
    (by norm_num)

/-! ### Frame analysis lemmas -/

/-- C3: for every analysed frame, the emitted triple's third entry is the
integer candidate of the threshold search (as a float, `-1` when none was
found), independent of the interpolation flag and of the frequency
filter; when a candidate was found and `sample_rate / refinedPeriod` lies
within `[min_freq, max_freq]`, the pitch is `sample_rate / refinedPeriod`
and the confidence is `1 - cmndf[candidate]`; otherwise pitch and
confidence are `0`. -/
theorem spec_c3 (frame : List ℚ) (sr t mn mx : ℚ) (interp : Bool) (cm : List ℚ)
    (h : yin_cumulative_mean_normalized_difference (yin_difference_function frame) = some cm) :
    (yin_analyze_frame frame sr t mn mx interp =
      some [(if yin_absolute_threshold cm t ≠ -1 ∧
                mn ≤ sr / yin_refined_period cm t interp ∧
                sr / yin_refined_period cm t interp ≤ mx
              then sr / yin_refined_period cm t interp else 0),
            (if yin_absolute_threshold cm t ≠ -1 ∧
                mn ≤ sr / yin_refined_period cm t interp ∧
                sr / yin_refined_period cm t interp ≤ mx
              then 1 - cm.getD (yin_absolute_threshold cm t).toNat 0 else 0),
            ((yin_absolute_threshold cm t : ℤ) : ℚ)]) ∧
    (∀ (interp2 : Bool) (mn2 mx2 : ℚ), ∃ p c2,
      yin_analyze_frame frame sr t mn2 mx2 interp2 =
        some [p, c2, ((yin_absolute_threshold cm t : ℤ) : ℚ)]) := by
  constructor
  · simp only [yin_analyze_frame, h]
    rcases yin_absolute_threshold_cases cm t with hneg | ⟨r, hr, h2, hlen, -⟩
    · rw [hneg]
      norm_num
    · rw [hr]
      have hpos : (0 : ℤ) < ((r : ℕ) : ℤ) := by omega
      have hne : (((r : ℕ) : ℤ)) ≠ -1 := by omega
      simp only [yin_refined_period, hr, if_pos hpos, hne, ne_eq, not_false_iff, true_and]
      split_ifs with hC <;> rfl
  · intro interp2 mn2 mx2
    simp only [yin_analyze_frame, h]
    exact ⟨_, _, rfl⟩

/-- C3 witness: the frame `[0,1,0,1,0,1,0,1]` at sample rate 100,
threshold `1/2`, band `[0, 1000]`, no interpolation, yields the triple
`[50, 1, 2]`. -/
theorem spec_c3_witness :
    yin_analyze_frame [0, 1, 0, 1, 0, 1, 0, 1] 100 (1/2) 0 1000 false = some [50, 1, 2] := by
  have hcm : yin_cumulative_mean_normalized_difference
      (yin_difference_function [0, 1, 0, 1, 0, 1, 0, 1]) = some [1, 1, 0, 3/2] := by
    norm_num [yin_difference_function, yin_cumulative_mean_normalized_difference,
      yin_cmndf_loop, List.range_succ]
  have ht : yin_absolute_threshold [1, 1, 0, 3/2] (1/2) = 2 := by
    norm_num [yin_absolute_threshold, yin_threshold_outer, yin_threshold_inner]
  have h := (spec_c3 [0, 1, 0, 1, 0, 1, 0, 1] 100 (1/2) 0 1000 false [1, 1, 0, 3/2] hcm).1
  rw [h, ht]
  norm_num [yin_refined_period, ht, show Int.toNat 2 = 2 from rfl]

/-! ### Driver lemmas -/

lemma yin_frame_slice_length (audio : List ℚ) (i fs : ℕ) (h : i + fs ≤ audio.length) :
    ((audio.drop i).take fs).length = fs := by
  simp only [List.length_take, List.length_drop]
  omega

lemma yin_analyze_frame_some (frame : List ℚ) (sr t mn mx : ℚ) (interp : Bool)
    (h : 2 ≤ frame.length) :
    ∃ tr, yin_analyze_frame frame sr t mn mx interp = some tr ∧ tr.length = 3 := by
  have hne : ¬ (yin_difference_function frame).length = 0 := by
    rw [yin_difference_function_length]
    omega
  simp only [yin_analyze_frame, yin_cumulative_mean_normalized_difference, hne, if_false]
  exact ⟨_, rfl, rfl⟩

lemma yin_analyze_frame_none (frame : List ℚ) (sr t mn mx : ℚ) (interp : Bool)
    (h : frame.length ≤ 1) :
    yin_analyze_frame frame sr t mn mx interp = none := by
  have hz : (yin_difference_function frame).length = 0 := by
    rw [yin_difference_function_length]
    omega
  simp only [yin_analyze_frame, yin_cumulative_mean_normalized_difference, hz, if_true]

lemma yin_frame_loop_spec (audio : List ℚ) (sr : ℚ) (fs hop : ℕ) (t mn mx : ℚ)
    (interp : Bool) (hhop : 1 ≤ hop) (hfs : 2 ≤ fs) :
    ∀ fuel i, audio.length + 1 ≤ i + fuel →
      ∃ r, yin_frame_loop audio sr fs hop t mn mx interp i fuel = some r ∧
        r.length = 3 * (if i + fs ≤ audio.length
          then (audio.length - fs - i) / hop + 1 else 0) := by
  intro fuel
  induction fuel with
  | zero =>
    intro i h
    have hc : ¬ (i + fs ≤ audio.length) := by omega
    exact ⟨[], by simp [yin_frame_loop, hc], by simp [hc]⟩
  | succ n ih =>
    intro i h
    by_cases hc : i + fs ≤ audio.length
    · obtain ⟨tr, htr, htr3⟩ := yin_analyze_frame_some ((audio.drop i).take fs) sr t mn mx
        interp (by rw [yin_frame_slice_length audio i fs hc]; exact hfs)
      obtain ⟨rest, hrest, hlen⟩ := ih (i + hop) (by omega)
      refine ⟨tr ++ rest, ?_, ?_⟩
      · simp only [yin_frame_loop, if_pos hc, htr, hrest]
      · rw [List.length_append, htr3, hlen, if_pos hc]
        by_cases h2 : i + hop + fs ≤ audio.length
        · rw [if_pos h2]
          have e1 : audio.length - fs - (i + hop) = audio.length - fs - i - hop := by omega
          rw [e1, ← Nat.div_eq_sub_div (by omega) (by omega : hop ≤ audio.length - fs - i)]
          ring
        · rw [if_neg h2]
          have e0 : (audio.length - fs - i) / hop = 0 := Nat.div_eq_of_lt (by omega)
          rw [e0]
    · exact ⟨[], by simp [yin_frame_loop, hc], by simp [hc]⟩

lemma perform_yin_analysis_some (audio : List ℚ) (sr : ℚ) (fs hop : ℕ)
    (t mn mx : ℚ) (interp : Bool) (hfs : 2 ≤ fs) (hhop : 1 ≤ hop) :
    ∃ r, perform_yin_analysis audio sr fs hop t mn mx interp = some r ∧
      r.length = 3 * (if audio.length < fs then 0
        else (audio.length - fs) / hop + 1) := by
  unfold perform_yin_analysis
  by_cases h : audio.length < fs
  · rw [if_pos h]
    exact ⟨[], rfl, by simp [h]⟩
  · rw [if_neg h, if_neg (by omega : ¬ hop = 0)]
    obtain ⟨r, hr, hlen⟩ := yin_frame_loop_spec audio sr fs hop t mn mx interp hhop hfs
      (audio.length + 1) 0 (by omega)
    refine ⟨r, hr, ?_⟩
    rw [hlen, if_pos (by omega : 0 + fs ≤ audio.length), if_neg h, Nat.sub_zero]

lemma perform_yin_analysis_none_of_small_frame (audio : List ℚ) (sr : ℚ) (fs hop : ℕ)
    (t mn mx : ℚ) (interp : Bool) (hfs : fs ≤ 1) (hle : fs ≤ audio.length)
    (hhop : 1 ≤ hop) :
    perform_yin_analysis audio sr fs hop t mn mx interp = none := by
  unfold perform_yin_analysis
  rw [if_neg (by omega : ¬ audio.length < fs), if_neg (by omega : ¬ hop = 0)]
  simp only [yin_frame_loop, if_pos (by omega : 0 + fs ≤ audio.length)]
  rw [yin_analyze_frame_none _ sr t mn mx interp
    (by rw [yin_frame_slice_length audio 0 fs (by omega)]; exact hfs)]

/-- C1: `get_frame_count` returns 0 when `audio_len < frame_size` and
`(audio_len - frame_size) / hop_size + 1` otherwise (for `hop_size ≥ 1`),
and whenever `perform_yin_analysis` completes with a result its frame
count equals one third of the result's length. -/
theorem spec_c1 (audio : List ℚ) (sr : ℚ) (fs hop : ℕ) (t mn mx : ℚ) (interp : Bool)
    (hhop : 1 ≤ hop) :
    get_frame_count audio.length fs hop =
      some (if audio.length < fs then 0 else (audio.length - fs) / hop + 1) ∧
    ∀ r, perform_yin_analysis audio sr fs hop t mn mx interp = some r →
      get_frame_count audio.length fs hop = some (r.length / 3) := by
  have hgfc : get_frame_count audio.length fs hop =
      some (if audio.length < fs then 0 else (audio.length - fs) / hop + 1) := by
    have hne : ¬ hop = 0 := by omega
    unfold get_frame_count
    by_cases h : audio.length < fs
    · simp [h]
    · simp [h, hne]
  refine ⟨hgfc, ?_⟩
  intro r hr
  by_cases h : audio.length < fs
  · unfold perform_yin_analysis at hr
    rw [if_pos h] at hr
    obtain rfl : ([] : List ℚ) = r := Option.some_inj.mp hr
    rw [hgfc, if_pos h]
    simp
  · by_cases h2 : 2 ≤ fs
    · obtain ⟨r', hr', hlen⟩ :=
        perform_yin_analysis_some audio sr fs hop t mn mx interp h2 hhop
      rw [hr] at hr'
      obtain rfl : r = r' := Option.some_inj.mp hr'
      rw [hgfc, hlen, if_neg h,
        Nat.mul_div_cancel_left _ (by norm_num : 0 < 3)]
    · rw [perform_yin_analysis_none_of_small_frame audio sr fs hop t mn mx interp
        (by omega) (by omega) hhop] at hr
      cases hr

/-- C1 witness: a 4-sample buffer with frame size 2 and hop 2 yields a
6-entry result, and `get_frame_count 4 2 2 = some 2 = some (6 / 3)`. -/
theorem spec_c1_witness : get_frame_count 4 2 2 = some 2 := by
  have hperf : perform_yin_analysis [0, 0, 0, 0] 1 2 2 (1/2) 0 1000 false
      = some [0, 0, -1, 0, 0, -1] := by
    norm_num [perform_yin_analysis, yin_frame_loop, yin_analyze_frame,
      yin_difference_function, yin_cumulative_mean_normalized_difference,
      yin_cmndf_loop, yin_absolute_threshold, yin_threshold_outer,
      yin_threshold_inner, List.range_succ]
  have h := (spec_c1 [0, 0, 0, 0] 1 2 2 (1/2) 0 1000 false
    (by norm_num)).2 [0, 0, -1, 0, 0, -1] hperf
  simpa using h

/-- C2 counterexample: with an empty buffer and `frame_size = 0` (and
`hop_size = 1`) the guard `audio_len < frame_size` does not trigger, the
first frame is empty, and the CMNDF stage panics writing `cmndf[0]` on a
zero-length curve — the call fails instead of returning an empty result. -/
theorem spec_c2_counterexample :
    perform_yin_analysis ([] : List ℚ) 1 0 1 1 0 1000 true = none := by
  norm_num [perform_yin_analysis, yin_frame_loop, yin_analyze_frame,
    yin_difference_function, yin_cumulative_mean_normalized_difference]

/-- C2 (amended): for every call with `audio_len < frame_size` (in
particular every empty buffer with `frame_size ≥ 1`) the function returns
an empty result sequence and does not fail. -/
theorem spec_c2_amended (audio : List ℚ) (sr : ℚ) (fs hop : ℕ) (t mn mx : ℚ)
    (interp : Bool) (h : audio.length < fs) :
    perform_yin_analysis audio sr fs hop t mn mx interp = some [] := by
  unfold perform_yin_analysis
  rw [if_pos h]

/-- C2 amended-claim witness: a 2-sample buffer with frame size 5 yields
the empty result. -/
theorem spec_c2_amended_witness :
    perform_yin_analysis [1, 2] 1 5 1 1 0 1000 false = some [] := by
  exact spec_c2_amended [1, 2] 1 5 1 1 0 1000 false (by norm_num)

/-- C9: a call with `hop_size = 0` and `audio_len ≥ frame_size` terminates
with an error (the `usize` division by zero computing `num_frames` panics
before the frame loop is entered), so it neither loops forever nor runs
into undefined behaviour. -/
theorem spec_c9 (audio : List ℚ) (sr : ℚ) (fs : ℕ) (t mn mx : ℚ) (interp : Bool)
    (h : fs ≤ audio.length) :
    perform_yin_analysis audio sr fs 0 t mn mx interp = none := by
  unfold perform_yin_analysis
  rw [if_neg (by omega : ¬ audio.length < fs), if_pos rfl]

/-- C9 witness: a one-sample buffer with frame size 1 and hop 0 is
rejected with the error value. -/
theorem spec_c9_witness :
    perform_yin_analysis [0] 1 1 0 (1/2) 0 1000 true = none := by
  exact spec_c9 [0] 1 1 (1/2) 0 1000 true (by norm_num)

/-- C10: for `frame_size ≥ 2` and `hop_size ≥ 1`, `perform_yin_analysis`
terminates with a result and no panic; the threshold-search result is
always a valid index bound (`-1 ≤ tau < cmndf.length`, so the
`cmndf[tau_estimate]` read is in bounds whenever `tau_estimate > 0`); and
`frame_size ≥ 2` is necessary: `frame_size ≤ 1` with a fitting buffer
panics at the `cmndf[0] = 1.0` write on a zero-length curve. -/
theorem spec_c10 :
    (∀ (audio : List ℚ) (sr : ℚ) (fs hop : ℕ) (t mn mx : ℚ) (interp : Bool),
      2 ≤ fs → 1 ≤ hop →
      ∃ r, perform_yin_analysis audio sr fs hop t mn mx interp = some r) ∧
    (∀ (cm : List ℚ) (t : ℚ),
      -1 ≤ yin_absolute_threshold cm t ∧
        yin_absolute_threshold cm t < (cm.length : ℤ)) ∧
    (∀ (audio : List ℚ) (sr : ℚ) (fs hop : ℕ) (t mn mx : ℚ) (interp : Bool),
      fs ≤ 1 → fs ≤ audio.length → 1 ≤ hop →
      perform_yin_analysis audio sr fs hop t mn mx interp = none) := by
  refine ⟨?_, ?_, ?_⟩
  · intro audio sr fs hop t mn mx interp hfs hhop
    obtain ⟨r, hr, -⟩ := perform_yin_analysis_some audio sr fs hop t mn mx interp hfs hhop
    exact ⟨r, hr⟩
  · intro cm t
    rcases yin_absolute_threshold_cases cm t with hneg | ⟨r, hr, h2, hlen, -⟩
    · rw [hneg]
      omega
    · rw [hr]
      omega
  · intro audio sr fs hop t mn mx interp hfs hle hhop
    exact perform_yin_analysis_none_of_small_frame audio sr fs hop t mn mx interp hfs hle hhop

/-- C10 witness: a 3-sample buffer with frame size 2 succeeds, a 1-sample
buffer with frame size 1 panics, and the search bound holds on `[1, 0]`. -/
theorem spec_c10_witness :
    perform_yin_analysis [0, 0, 0] 1 2 1 (1/2) 0 1000 false ≠ none ∧
    perform_yin_analysis [0] 1 1 1 (1/2) 0 1000 false = none ∧
    -1 ≤ yin_absolute_threshold [1, 0] (1/2) ∧
      yin_absolute_threshold [1, 0] (1/2) < (([(1 : ℚ), 0]).length : ℤ) := by
  refine ⟨?_, ?_, ?_⟩
  · obtain ⟨r, hr⟩ := spec_c10.1 [0, 0, 0] 1 2 1 (1/2) 0 1000 false
      (by norm_num) (by norm_num)
    rw [hr]
    simp
  · exact spec_c10.2.2 [0] 1 1 1 (1/2) 0 1000 false (by norm_num) (by norm_num)
      (by norm_num)
  · exact spec_c10.2.1 [1, 0] (1/2)
